import Mathlib

/-!
Verification development for the postschema authorization and
view-synthesis engine.  The definitions below are shallow embeddings of
the Python source (src/postschema/shield.py, src/postschema/__init__.py,
src/postschema/core.py); each definition's doc comment names the source
function it embeds.  Python dicts are modelled as association lists
(insertion order preserved, assignment replaces the binding in place),
Python sets as lists with membership semantics, and fallible code via
Except.
-/

/-- Association-list lookup, modelling Python dict subscription /
`getattr(obj, key, None)`: first binding for the key wins. -/
def lookupA {κ α : Type} [DecidableEq κ] : List (κ × α) → κ → Option α
  | [], _ => none
  | (k, v) :: rest, key => if k = key then some v else lookupA rest key

/-- Association-list assignment, modelling Python `d[k] = v`: replaces the
existing binding in place, otherwise appends. -/
def assocSet {κ α : Type} [DecidableEq κ] : List (κ × α) → κ → α → List (κ × α)
  | [], k, v => [(k, v)]
  | (k', v') :: rest, k, v =>
      if k' = k then (k, v) :: rest else (k', v') :: assocSet rest k v

/-- Models Python `s.startswith(p)` via the character list. -/
def pyStartsWith (s p : String) : Bool := p.data.isPrefixOf s.data

/-- Models Python `s.endswith(p)` via the character list. -/
def pyEndsWith (s p : String) : Bool := p.data.isSuffixOf s.data

/-! ### Shield compilation (src/postschema/shield.py, `parse_schemas`) -/

/-- A key of a Shield operation dict: either a single role name (the
wildcard `*` included) or a tuple of role names. -/
inductive RoleKey
  | one (r : String)
  | many (rs : List String)
deriving DecidableEq

/-- The parts of a registered schema read by `parse_schemas`:
the non-dunder attribute names of `Authed.permissions` and
`Private.permissions`, and the `Shield` class body
(operation name -> dict of role-key -> shield method). -/
structure ShieldSchema where
  name : String
  authedPerms : List String
  privatePerms : List String
  shield : List (String × List (RoleKey × String))
deriving DecidableEq

/-- `set(authed...) | set(private...)` filtered of names starting with
an underscore, as in shield.py lines 8-10.  Python's set union has
arbitrary iteration order; only membership matters downstream, so we
dedup keeping first occurrences. -/
def presentOps (authed priv : List String) : List String :=
  (((authed ++ priv).filter (fun s => !(pyStartsWith s "_")))).dedup

/-- shield.py lines 12-17: `update` expands to `patch`/`put`, `read`
expands to `get`/`list` (`list.remove` drops the first occurrence,
`extend` appends). -/
def expandOps (l : List String) : List String :=
  let l1 := if "update" ∈ l then l.erase "update" ++ ["patch", "put"] else l
  if "read" ∈ l1 then l1.erase "read" ++ ["get", "list"] else l1

/-- shield.py lines 23-35: validate one role key against the system
roles and produce the allowed-role set (`none` models the raised
ValueError).  A tuple key has each member checked for membership; a
single `*` expands to all configured roles; any other single key is
checked for membership. -/
def checkRoleKey (systemRoles : List String) : RoleKey → Option (List String)
  | .many rs => if rs.all (fun r => systemRoles.contains r) then some rs else none
  | .one r =>
      if r = "*" then some systemRoles
      else if systemRoles.contains r then some [r] else none

/-- shield.py lines 22-39, the body of
`for roles, shield_op in shield_op_dict.items()`: role keys are
validated, then the shield method is checked against `otp`/`sms`, then
`schema_inst.shields[op] = [allowed_roles, shield_op]` (note: an
assignment keyed by the operation alone, overwriting any binding made
for an earlier role key of the same operation). -/
def parseEntries (systemRoles : List String) (op : String) :
    List (RoleKey × String) → List (String × (List String × String)) →
    Except String (List (String × (List String × String)))
  | [], shields => .ok shields
  | (key, meth) :: rest, shields =>
      match checkRoleKey systemRoles key with
      | none => .error ("Shield at `" ++ op ++ "` contains invalid role")
      | some allowed =>
          if meth = "otp" ∨ meth = "sms" then
            parseEntries systemRoles op rest (assocSet shields op (allowed, meth))
          else
            .error ("Shield." ++ op ++ " defines an invalid shield method")

/-- shield.py lines 19-39, the loop `for op in present_ops`: look the
operation up on the `Shield` class (absent or empty dict means skip)
and process its entries. -/
def parseOps (systemRoles : List String)
    (shieldAttrs : List (String × List (RoleKey × String))) :
    List String → List (String × (List String × String)) →
    Except String (List (String × (List String × String)))
  | [], shields => .ok shields
  | op :: rest, shields =>
      match lookupA shieldAttrs op with
      | none => parseOps systemRoles shieldAttrs rest shields
      | some entries =>
          match parseEntries systemRoles op entries shields with
          | .error e => .error e
          | .ok shields' => parseOps systemRoles shieldAttrs rest shields'

/-- `parse_schemas` (shield.py) restricted to a single schema: the
source iterates `schemas.full_iter` performing this per-schema action.
Returns the compiled `schema_inst.shields` mapping or the raised
ValueError. -/
def parse_schemas (systemRoles : List String) (sch : ShieldSchema) :
    Except String (List (String × (List String × String))) :=
  parseOps systemRoles sch.shield
    (expandOps (presentOps sch.authedPerms sch.privatePerms)) []

/-! ### System role set (src/postschema/__init__.py, `setup_postschema`) -/

/-- Python `str.title()` over ASCII: a letter following a letter is
lowercased, a letter following a non-letter (or at the start) is
uppercased; non-letters pass through and reset the word boundary.  The
boolean argument records whether the previous character was cased. -/
def titleAux : Bool → List Char → List Char
  | _, [] => []
  | prev, c :: cs =>
      if c.isAlpha then
        (if prev then c.toLower else c.toUpper) :: titleAux true cs
      else
        c :: titleAux false cs

/-- Models Python `role.title()`. -/
def pyTitle (s : String) : String := ⟨titleAux false s.data⟩

/-- `DEFAULT_ROLES` (src/postschema/__init__.py line 43). -/
def DEFAULT_ROLES : List String := ["*", "Admin", "Owner", "Manager", "Staff"]

/-- src/postschema/__init__.py line 259:
`ROLES = frozenset(role.title() for role in DEFAULT_ROLES | set(roles))`.
Frozenset semantics is membership; we keep the underlying list. -/
def setup_roles (userRoles : List String) : List String :=
  (DEFAULT_ROLES ++ userRoles).map pyTitle

/-! ### Spec Filter (src/postschema/__init__.py, `PathsReturner`) -/

/-- The value of `PathsReturner.roles`: it starts life as the dataclass
default `()` (a Python tuple) and is later mutated to
`set(request.session.roles)` by `actor_apispec`; the two types behave
differently inside `paths_by_roles` (`set & tuple` raises TypeError,
which the surrounding `suppress` swallows). -/
inductive PyRoles
  | tup (l : List String)
  | set (l : List String)
deriving DecidableEq

/-- The elements of the roles value, for membership tests (`in` works
on both tuples and sets). -/
def rolesElems : PyRoles → List String
  | .tup l => l
  | .set l => l

/-- An OpenAPI path item: operation name -> optional `security` allowed
role list (`none` models an operation with no `security` key, whose
lookup raises a suppressed KeyError). -/
abbrev PathItem := List (String × Option (List String))

/-- The `paths` table of the OpenAPI document. -/
abbrev SpecPaths := List (String × PathItem)

/-- src/postschema/__init__.py lines 200-207, the per-operation decision
of `paths_by_roles`: the operation is kept (not deleted from the copy)
iff the `security` lookup raises KeyError (no security declared), or
`'*' in authed`, or `'Admin' in self.roles`, or — when `self.roles` is
a set — `authed & self.roles` is nonempty.  When `self.roles` is still
the initial tuple, `authed & self.roles` raises TypeError, which
`suppress(KeyError, TypeError)` swallows, so the operation is kept. -/
def keep_op (roles : PyRoles) (security : Option (List String)) : Bool :=
  match security with
  | none => true
  | some authed =>
      if authed.contains "*" || (rolesElems roles).contains "Admin" then true
      else
        match roles with
        | .tup _ => true
        | .set rs => authed.any (fun r => rs.contains r)

/-- The filtering phase of `PathsReturner.paths_by_roles`
(src/postschema/__init__.py lines 198-207): a deep copy of the spec's
paths with every non-kept operation deleted.  (The subsequent phase,
lines 209-241, re-keys the retained operations by view name for the
router's resources; the set of retained operations is decided here.) -/
def paths_by_roles (spec : SpecPaths) (roles : PyRoles) : SpecPaths :=
  spec.map (fun pr => (pr.1, pr.2.filter (fun op => keep_op roles op.2)))

/-- The `lru_cache` sitting on `paths_by_roles`, as it actually behaves
on the single shared, mutated `PathsReturner` instance: the cache key
object is the instance itself, whose stored hash is
`hash(tuple(self.roles))` and whose equality check always succeeds
(the stored key and the probe are the same object), so a lookup hits
exactly when the tuple of the current roles value matches a previously
cached one.  We model the key by the roles tuple itself (i.e. we grant
the code a collision-free hash). -/
def pyRolesTuple (r : PyRoles) : List String := rolesElems r

/-- One cached-property read: return the cached projection for the
current roles tuple if present, otherwise compute `paths_by_roles` and
cache it. -/
def cachedPathsByRoles (spec : SpecPaths)
    (cache : List (List String × SpecPaths)) (roles : PyRoles) :
    SpecPaths × List (List String × SpecPaths) :=
  match lookupA cache (pyRolesTuple roles) with
  | some v => (v, cache)
  | none =>
      let v := paths_by_roles spec roles
      (v, cache ++ [(pyRolesTuple roles, v)])

/-- src/postschema/__init__.py lines 368-369: `setup_postschema` builds
the shared `PathsReturner` and immediately reads `paths_by_roles` while
`roles` is still the dataclass default `()`, priming the cache. -/
def prime_cache (spec : SpecPaths) : List (List String × SpecPaths) :=
  (cachedPathsByRoles spec [] (.tup [])).2

/-- src/postschema/__init__.py lines 380-386, `actor_apispec`: set
`paths_by_roles.roles = set(request.session.roles)` on the shared
instance and return the cached property. -/
def actor_apispec (spec : SpecPaths) (cache : List (List String × SpecPaths))
    (sessionRoles : List String) : SpecPaths × List (List String × SpecPaths) :=
  cachedPathsByRoles spec cache (.set sessionRoles)

/-- An operation object of the full API description as read by the
projection phase of `paths_by_roles`: its `security` allowed-role list
(`none` when the operation declares no security requirement) and the
tail of its `requestBody.content.application/json.schema.$ref` chain
after `rsplit('/', 1)` (`none` when some link of that subscription
chain is missing, so that reading it raises KeyError). -/
structure OpObj where
  security : Option (List String)
  ref : Option String
deriving DecidableEq

/-- A full-document path item: operation name -> operation object. -/
abbrev PathItemF := List (String × OpObj)

/-- The full document's `paths` table. -/
abbrev SpecPathsF := List (String × PathItemF)

/-- The deletion phase of `paths_by_roles` (lines 198-207) on the full
document: the same per-operation decision `keep_op`, applied to each
operation's `security` value. -/
def paths_by_roles_full (spec : SpecPathsF) (roles : PyRoles) : SpecPathsF :=
  spec.map (fun pr => (pr.1, pr.2.filter (fun op => keep_op roles op.2.security)))

/-- A router resource as read by the projection phase (lines 210-226):
the handler-derived view name (`handler.__name__` with `View` removed
and the first letter lowercased), the resource url, and the HTTP method
of the resource's first route.  Sub-applications — resources without
`_routes`, skipped by the `except AttributeError` — are not listed. -/
structure RouterResource where
  viewname : String
  url : String
  firstMethod : String
deriving DecidableEq

/-- Lines 231-232: an `options` method key is re-labelled `list`. -/
def methodLabel (m : String) : String := if m = "options" then "list" else m

/-- Lines 228-240, the body of `with suppress(KeyError)` after the
path lookup: walk the filtered path item in order; a missing `$ref`
chain or an unknown component schema raises KeyError, which aborts the
remaining methods of this path while keeping the entries already
assigned; otherwise `out[f'\x7bviewname\x7d:\x7bmethod\x7d']` is assigned
(an overwriting dict assignment) with the url, the presence of the
`security` key, and the resolved component schema. -/
def addPathEntries (components : List (String × String)) (viewname url : String) :
    List (String × OpObj) → List (String × (String × Bool × String)) →
    List (String × (String × Bool × String))
  | [], out => out
  | (m, o) :: rest, out =>
      match o.ref with
      | none => out
      | some ref =>
          match lookupA components ref with
          | none => out
          | some schemaVal =>
              addPathEntries components viewname url rest
                (assocSet out (viewname ++ ":" ++ methodLabel m)
                  (url, o.security.isSome, schemaVal))

/-- Lines 209-241, the loop over `self.router.resources()`: a resource
whose first route's method is OPTIONS or POST is skipped; a url with no
entry in the filtered paths raises a suppressed KeyError; otherwise the
path's retained operations are assigned into `out`. -/
def build_out (filtered : SpecPathsF) (components : List (String × String)) :
    List RouterResource → List (String × (String × Bool × String)) →
    List (String × (String × Bool × String))
  | [], out => out
  | r :: rest, out =>
      if r.firstMethod = "OPTIONS" ∨ r.firstMethod = "POST" then
        build_out filtered components rest out
      else
        match lookupA filtered r.url with
        | none => build_out filtered components rest out
        | some viewSpec =>
            build_out filtered components rest
              (addPathEntries components r.viewname r.url viewSpec out)

/-- `PathsReturner.paths_by_roles` in full (lines 197-241): filter the
deep-copied paths by role, then re-key the retained operations by view
name and method over the router's resources, starting from the empty
`out` dict. -/
def paths_by_roles_out (spec : SpecPathsF) (components : List (String × String))
    (router : List RouterResource) (roles : PyRoles) :
    List (String × (String × Bool × String)) :=
  build_out (paths_by_roles_full spec roles) components router []

/-- Modelled from the spec: the shape of the API description surface
produced by the spec builder (`APISpecBuilder`, src/postschema/spec.py,
which is not under src/) together with the router glue it is built
against.  Spec section 6 describes the document as "a structured
document (paths -> operations -> required roles -> payload/response
shape)" whose consumers fetch role-filtered projections: every declared
operation carries a resolvable payload-shape reference, path keys and a
path item's method keys are unique (Python dicts), the `options`/`list`
re-labelling stays injective on a path item's methods, view names are
colon-free, and a view name determines its resource url. -/
structure WellFormedDoc (spec : SpecPathsF) (components : List (String × String))
    (router : List RouterResource) : Prop where
  nodup_paths : (spec.map Prod.fst).Nodup
  nodup_methods : ∀ path item, (path, item) ∈ spec → (item.map Prod.fst).Nodup
  label_inj : ∀ path item, (path, item) ∈ spec →
    ∀ m ∈ item.map Prod.fst, ∀ m' ∈ item.map Prod.fst,
      methodLabel m = methodLabel m' → m = m'
  refs_ok : ∀ path item, (path, item) ∈ spec → ∀ e ∈ item,
    ∃ ref s, (e : String × OpObj).2.ref = some ref ∧ lookupA components ref = some s
  viewname_url : ∀ r1 ∈ router, ∀ r2 ∈ router,
    RouterResource.viewname r1 = RouterResource.viewname r2 →
      RouterResource.url r1 = RouterResource.url r2
  colon_free : ∀ r ∈ router, (':' : Char) ∉ (RouterResource.viewname r).data

/-! ### Relationship resolver (src/postschema/core.py,
`ViewMaker.process_relationships`) -/

/-- The field kinds `process_relationships` distinguishes
(src/postschema/fields.py classes, dispatched by isinstance):
`ForeignResource` (single reference, with its `unique` metadata flag),
`ForeignResources` (multi reference), `AutoSessionForeignResource`
(only hooks a validator), and everything else. -/
inductive FieldKind
  | plain
  | autoSession (targetTable targetPk : String)
  | singleRef (targetTable targetPk : String) (unique : Bool)
  | multiRef (targetTable targetPk : String)
deriving DecidableEq

/-- The per-schema state `process_relationships` reads and mutates:
table name, primary key name, declared fields in order, and the
accumulated `_deletion_cascade` / `_m2m_cherrypicks` lists. -/
structure SchemaRec where
  table : String
  pk : String
  fields : List (String × FieldKind)
  deletion_cascade : List (String × String × String)
  m2m_cherrypicks : List (String × String × String)
deriving DecidableEq

/-- The registry of schemas keyed by table name
(`self.registered_schemas @ linked_table`). -/
abbrev Registry := String → Option SchemaRec

/-- `linked_schema._deletion_cascade.append(entry)`. -/
def appendCascade (reg : Registry) (t : String) (e : String × String × String) :
    Registry :=
  fun x =>
    if x = t then
      (reg x).map (fun r => { r with deletion_cascade := r.deletion_cascade ++ [e] })
    else reg x

/-- `linked_schema._m2m_cherrypicks.append(entry)`. -/
def appendCherry (reg : Registry) (t : String) (e : String × String × String) :
    Registry :=
  fun x =>
    if x = t then
      (reg x).map (fun r => { r with m2m_cherrypicks := r.m2m_cherrypicks ++ [e] })
    else reg x

/-- The multi-reference where-statement
`f'{fieldname} ?& %({fieldname})s'` (core.py line 284): the `?&`
set-containment operator over the stored key set. -/
def m2mWhereStmt (fieldname : String) : String :=
  fieldname ++ " ?& %(" ++ fieldname ++ ")s"

/-- The single-reference join template
`f'{linked_table}.{{subkey}}=%({{fill}})s'` (core.py line 295),
with the literal braces preserved. -/
def singleRefJoin (linkedTable : String) : String :=
  linkedTable ++ ".\x7bsubkey\x7d=%(\x7bfill\x7d)s"

/-- The field loop of `process_relationships` (core.py lines 253-295).
`t`/`pk` are the declaring schema's table and primary key
(`this_table`, `this_pk`); the accumulator `dc` is the local
`deletion_cascade` list.  Per relationship field, in declaration order:
  * `AutoSessionForeignResource` only hooks a validator;
  * `ForeignResources` registers `(this_table, fieldname, this_pk)` on
    the linked schema's `_m2m_cherrypicks` and emits the `?&`
    where-statement;
  * `ForeignResource`, not unique: appends
    `this_target = (fieldname, this_table, this_pk)` to the linked
    schema's `_deletion_cascade` only;
  * `ForeignResource`, unique: additionally appends
    `linked_target = (linked_pk, linked_table, fieldname)` to the local
    `deletion_cascade`; both single-reference cases emit a join entry.
Returns (updated registry, final local deletion_cascade, joins,
m2m where-statements). -/
def process_fields (t pk : String) :
    List (String × FieldKind) → Registry → List (String × String × String) →
    Registry × List (String × String × String) × List (String × String) ×
      List (String × String)
  | [], reg, dc => (reg, dc, [], [])
  | (_, FieldKind.plain) :: rest, reg, dc => process_fields t pk rest reg dc
  | (_, FieldKind.autoSession _ _) :: rest, reg, dc => process_fields t pk rest reg dc
  | (f, FieldKind.multiRef tt _) :: rest, reg, dc =>
      let out := process_fields t pk rest (appendCherry reg tt (t, f, pk)) dc
      (out.1, out.2.1, out.2.2.1, (f, m2mWhereStmt f) :: out.2.2.2)
  | (f, FieldKind.singleRef tt tpk uniq) :: rest, reg, dc =>
      let dc' := if uniq then dc ++ [(tpk, tt, f)] else dc
      let out := process_fields t pk rest (appendCascade reg tt (f, t, pk)) dc'
      (out.1, out.2.1, (f, singleRefJoin tt) :: out.2.2.1, out.2.2.2)

/-- `ViewMaker.process_relationships` (core.py lines 241-300): run the
field loop, then `retype_schema` writes the final local
`deletion_cascade` back onto the declaring schema
(`new_schema_methods['_deletion_cascade'] = deletion_cascade`).
Returns the registry after all appends plus that write-back, the join
plan and the multi-reference where-statements. -/
def process_relationships (reg : Registry) (self : SchemaRec) :
    Registry × List (String × String) × List (String × String) :=
  let out := process_fields self.table self.pk self.fields reg self.deletion_cascade
  (fun x =>
      if x = self.table then
        (out.1 x).map (fun r => { r with deletion_cascade := out.2.1 })
      else out.1 x,
   out.2.2.1, out.2.2.2)

/-- The `linked_target` entry a unique single-reference field appends
to the declaring schema's own `_deletion_cascade`
(`(linked_table_pk, linked_table, fieldname)`, core.py line 292). -/
def uniqLinkedTarget : String × FieldKind → Option (String × String × String)
  | (f, FieldKind.singleRef tt tpk true) => some (tpk, tt, f)
  | _ => none

/-- The `this_target` entries a table `x` accumulates on its
`_deletion_cascade` from the declaring schema's single-reference
fields (`(fieldname, this_table, this_pk)`, core.py lines 288/293). -/
def cascadeAddsAt (t pk x : String) : String × FieldKind → Option (String × String × String)
  | (f, FieldKind.singleRef tt _ _) => if tt = x then some (f, t, pk) else none
  | _ => none

/-- The entries a table `x` accumulates on its `_m2m_cherrypicks` from
the declaring schema's multi-reference fields
(`(this_table, fieldname, this_pk)`, core.py line 272). -/
def cherryAddsAt (t pk x : String) : String × FieldKind → Option (String × String × String)
  | (f, FieldKind.multiRef tt _) => if tt = x then some (t, f, pk) else none
  | _ => none

/-- The join entry of a single-reference field (core.py line 295). -/
def joinOf : String × FieldKind → Option (String × String)
  | (f, FieldKind.singleRef tt _ _) => some (f, singleRefJoin tt)
  | _ => none

/-- The where-statement entry of a multi-reference field (core.py
line 284). -/
def wsOf : String × FieldKind → Option (String × String)
  | (f, FieldKind.multiRef _ _) => some (f, m2mWhereStmt f)
  | _ => none

/-! ### View synthesis (src/postschema/core.py, `ViewMaker.create_views`
and `ViewMaker.create_aux_views`) -/

/-- A method slot of a synthesized view class: either one of the
`ViewsTemplate` implementations copied in by name, or one of the two
proxies defined inside `create_views` (`get_proxy` runs `self.get()`,
`list_proxy` runs `self.list()`). -/
inductive Handler
  | tmpl (name : String)
  | get_proxy
  | list_proxy
deriving DecidableEq

/-- The output of `create_views`: the base resource url, the method
tables of the primary view class, of the POST-as-GET copy and (when
`list` is not excluded) of the list copy, and the registered routes as
(HTTP method pattern, url, view index 0/1/2).  The `_perm_options`
object is attached to the primary class after `create_views` returns
(core.py lines 377-380) and is inherited by both copies, so a single
perms value is shared by all three. -/
structure CreatedViews where
  base_url : String
  primary : List (String × Handler)
  get_copy : List (String × Handler)
  list_copy : Option (List (String × Handler))
  routes : List (String × String × Nat)
deriving DecidableEq

/-- `ViewMaker.create_views` (core.py lines 126-180).
`route_base` is `meta.route_base.replace('/', '').lower()`;
the primary class takes every non-excluded `ViewsTemplate` method; the
POST-as-GET copy is a subclass (the `popattr` loop deletes nothing —
the fresh subclass owns no attributes — so every method is still
inherited) whose `post` is set to `get_proxy`, registered under
`add_post` at `base + 'get/'`; the list copy further sets `get` to
`list_proxy` and is registered under `add_get` at `base + 'list/'`
when `'list' not in excluded_ops`. -/
def create_views (routeBaseRaw : String) (excludedOps : List String)
    (templateMethods : List String) : CreatedViews :=
  let rb : String := ⟨(routeBaseRaw.data.filter (fun c => c ≠ '/')).map Char.toLower⟩
  let base := "/" ++ rb ++ "/"
  let primary := (templateMethods.filter (fun m => !(excludedOps.contains m))).map
    (fun m => (m, Handler.tmpl m))
  let getCopy := assocSet primary "post" Handler.get_proxy
  let listCopy :=
    if excludedOps.contains "list" then none
    else some (assocSet getCopy "get" Handler.list_proxy)
  let routes := [("*", base, 0), ("POST", base ++ "get/", 1)] ++
    (if excludedOps.contains "list" then [] else [("GET", base ++ "list/", 2)])
  ⟨base, primary, getCopy, listCopy, routes⟩

/-- Dispatching an HTTP method on a synthesized view class with its
(inherited) perm options: a template method runs itself; `get_proxy`
runs the class's `get` slot; `list_proxy` runs the class's `list` slot.
The result names the `ViewsTemplate` implementation that executes and
the perm options it executes under. -/
def invoke {P : Type} (slots : List (String × Handler)) (perms : P)
    (meth : String) : Option (String × P) :=
  match lookupA slots meth with
  | some (.tmpl n) => some (n, perms)
  | some .get_proxy =>
      match lookupA slots "get" with
      | some (.tmpl n) => some (n, perms)
      | _ => none
  | some .list_proxy =>
      match lookupA slots "list" with
      | some (.tmpl n) => some (n, perms)
      | _ => none
  | none => none

/-- Auxiliary route name normalization (core.py lines 192-195): strip
one leading slash, append a trailing slash when missing. -/
def norm_aux_route (r : String) : String :=
  let r1 : String := if pyStartsWith r "/" then ⟨r.data.drop 1⟩ else r
  if pyEndsWith r1 "/" then r1 else r1 ++ "/"

/-- `ViewMaker.create_aux_views` (core.py lines 182-220), restricted to
the route bookkeeping the claims are about: each declared route name is
normalized; a normalized name ending in `/list/` raises NameError;
otherwise the view is registered at `base_resource_url + routename`.
Returns the registered urls in declaration order, or the error. -/
def create_aux_views (base : String) : List String → Except String (List String)
  | [] => .ok []
  | n :: rest =>
      let nn := norm_aux_route n
      if pyEndsWith nn "/list/" then
        .error "auxiliary route contains illegal value (/list/)"
      else
        match create_aux_views base rest with
        | .error e => .error e
        | .ok urls => .ok ((base ++ nn) :: urls)

/-! ### Concrete instances used by witnesses -/

/-- The `Shield` block of `AlterShieldedResource`
(src/tests/mock/schema.py lines 738-753): one operation, two role keys
with different shield methods. -/
def alterShieldedResource : ShieldSchema :=
  { name := "AlterShieldedResource", authedPerms := ["post"], privatePerms := [],
    shield := [("post", [(.one "Staff", "otp"), (.one "Doctor", "sms")])] }

/-- The system roles of the mock application (defaults plus the
title-cased user roles of src/tests/mock/main.py). -/
def mockSystemRoles : List String :=
  ["*", "Admin", "Owner", "Manager", "Staff", "Patient", "Doctor", "Operator"]

/-- Schema record shaped after `Product` (src/tests/mock/schema.py):
`descr` is a unique single reference to `desc.id`, `producer` a
non-unique single reference to `producer.id`. -/
def productRec : SchemaRec :=
  { table := "product", pk := "id",
    fields := [("id", .plain), ("name", .plain),
               ("descr", .singleRef "desc" "id" true),
               ("producer", .singleRef "producer" "id" false)],
    deletion_cascade := [], m2m_cherrypicks := [] }

/-- Schema record shaped after `Description` (table `desc`). -/
def descRec : SchemaRec :=
  { table := "desc", pk := "id", fields := [("id", .plain), ("text", .plain)],
    deletion_cascade := [], m2m_cherrypicks := [] }

/-- Schema record shaped after `Producer`. -/
def producerRec : SchemaRec :=
  { table := "producer", pk := "id", fields := [("id", .plain), ("name", .plain)],
    deletion_cascade := [], m2m_cherrypicks := [] }

/-- Schema record shaped after `Store` (src/tests/mock/schema.py lines
94-105): `distributors` is a multi reference to `dist.id`. -/
def storeRec : SchemaRec :=
  { table := "store", pk := "id",
    fields := [("id", .plain), ("name", .plain),
               ("distributors", .multiRef "dist" "id")],
    deletion_cascade := [], m2m_cherrypicks := [] }

/-- Schema record shaped after `Distributor` (table `dist`). -/
def distRec : SchemaRec :=
  { table := "dist", pk := "id", fields := [("id", .plain), ("name", .plain)],
    deletion_cascade := [], m2m_cherrypicks := [] }

/-- A registry holding the mock schemas above. -/
def mockRegistry : Registry := fun t =>
  if t = "product" then some productRec
  else if t = "desc" then some descRec
  else if t = "producer" then some producerRec
  else if t = "store" then some storeRec
  else if t = "dist" then some distRec
  else none

/-- A small OpenAPI paths table with one operation restricted to the
`Owner` role and one operation declaring no security requirement. -/
def mockSpecPaths : SpecPaths :=
  [("/store/", [("post", some ["Owner"]), ("get", none)])]

/-! ### Helper lemmas -/

theorem lookupA_assocSet_self {α : Type} (l : List (String × α)) (k : String) (v : α) :
    lookupA (assocSet l k v) k = some v := by
  induction l with
  | nil => simp [assocSet, lookupA]
  | cons hd tl ih =>
      obtain ⟨k', v'⟩ := hd
      by_cases h : k' = k
      · subst h
        simp [assocSet, lookupA]
      · simp [assocSet, lookupA, h, ih]

theorem lookupA_assocSet_ne {α : Type} (l : List (String × α)) (k k' : String)
    (v : α) (h : k' ≠ k) : lookupA (assocSet l k v) k' = lookupA l k' := by
  induction l with
  | nil => simp [assocSet, lookupA, Ne.symm h]
  | cons hd tl ih =>
      obtain ⟨k0, v0⟩ := hd
      by_cases h0 : k0 = k
      · subst h0
        simp [assocSet, lookupA, Ne.symm h]
      · simp [assocSet, lookupA, h0, ih]

theorem mem_assocSet {α : Type} (l : List (String × α)) (k k' : String)
    (v v' : α) (h : (k', v') ∈ assocSet l k v) :
    (k' = k ∧ v' = v) ∨ (k', v') ∈ l := by
  induction l with
  | nil =>
      simp [assocSet] at h
      exact Or.inl ⟨h.1, h.2⟩
  | cons hd tl ih =>
      obtain ⟨k0, v0⟩ := hd
      by_cases h0 : k0 = k
      · subst h0
        simp [assocSet] at h
        rcases h with ⟨rfl, rfl⟩ | hmem
        · exact Or.inl ⟨rfl, rfl⟩
        · exact Or.inr (List.mem_cons_of_mem _ hmem)
      · simp [assocSet, h0] at h
        rcases h with ⟨rfl, rfl⟩ | hmem
        · exact Or.inr (List.mem_cons_self _ _)
        · rcases ih hmem with hl | hr
          · exact Or.inl hl
          · exact Or.inr (List.mem_cons_of_mem _ hr)

theorem lookupA_tmpl_map (l : List String) (m : String) (h : m ∈ l) :
    lookupA (l.map (fun x => (x, Handler.tmpl x))) m = some (.tmpl m) := by
  induction l with
  | nil => cases h
  | cons a tl ih =>
      by_cases ha : a = m
      · subst ha
        simp [lookupA]
      · rcases List.mem_cons.mp h with rfl | htl
        · exact absurd rfl ha
        · simp [lookupA, ha, ih htl]

theorem lookupA_filter_keys {α : Type} (p : String → Bool)
    (l : List (String × α)) (k : String) (hk : p k = true) :
    lookupA (l.filter (fun e => p e.1)) k = lookupA l k := by
  induction l with
  | nil => simp
  | cons hd tl ih =>
      obtain ⟨k0, v0⟩ := hd
      by_cases h0 : k0 = k
      · subst h0
        simp [List.filter, hk, lookupA]
      · by_cases hp : p k0
        · simp [List.filter, hp, lookupA, h0, ih]
        · simp [List.filter, hp, lookupA, h0, ih]

theorem nodup_keys_unique {α : Type} :
    ∀ (l : List (String × α)), (l.map Prod.fst).Nodup →
      ∀ {k : String} {a b : α}, (k, a) ∈ l → (k, b) ∈ l → a = b := by
  intro l
  induction l with
  | nil => intro _ k a b ha; cases ha
  | cons hd tl ih =>
      intro hnd k a b ha hb
      obtain ⟨k0, v0⟩ := hd
      simp only [List.map_cons, List.nodup_cons] at hnd
      rcases List.mem_cons.mp ha with h1 | h1
      · rcases List.mem_cons.mp hb with h2 | h2
        · rw [Prod.mk.injEq] at h1 h2
          exact h1.2.trans h2.2.symm
        · rw [Prod.mk.injEq] at h1
          exact absurd (h1.1 ▸ List.mem_map_of_mem Prod.fst h2) hnd.1
      · rcases List.mem_cons.mp hb with h2 | h2
        · rw [Prod.mk.injEq] at h2
          exact absurd (h2.1 ▸ List.mem_map_of_mem Prod.fst h1) hnd.1
        · exact ih hnd.2 h1 h2

theorem keep_op_set_eq (R a : List String) :
    keep_op (.set R) (some a)
      = (a.contains "*" || R.contains "Admin" || a.any fun r => R.contains r) := by
  by_cases hc : (a.contains "*" || R.contains "Admin") = true
  · simp only [keep_op, rolesElems, hc, if_true]
    simp [Bool.or_eq_true] at hc
    rcases hc with hc | hc <;> simp [hc]
  · simp only [Bool.not_eq_true] at hc
    simp only [keep_op, rolesElems, hc]
    simp [Bool.or_eq_true] at hc
    simp [hc.1, hc.2]

theorem keep_op_set_iff (R : List String) (sec : Option (List String)) :
    keep_op (.set R) sec = true ↔
      (sec = none ∨ ∃ a, sec = some a ∧
        ("*" ∈ a ∨ "Admin" ∈ R ∨ ∃ r, r ∈ a ∧ r ∈ R)) := by
  cases sec with
  | none => simp [keep_op]
  | some a =>
      rw [keep_op_set_eq]
      simp [or_assoc]

theorem defaults_title_fixed : ∀ d ∈ DEFAULT_ROLES, pyTitle d = d := by decide

/-! ### Claim theorems -/

/-- Helper: membership characterization of the deletion phase of
`paths_by_roles` (lines 198-207): an operation survives the per-path
filter for a set-typed role value exactly when it declares no security
requirement, its allowed roles contain `*`, the requester holds
`Admin`, or the allowed roles intersect the requester's roles. -/
theorem filter_phase_membership (spec : SpecPaths) (R : List String)
    (path : String) (ops : PathItem) (op : String) (sec : Option (List String))
    (hpath : (path, ops) ∈ spec) :
    ((path, ops.filter (fun o => keep_op (.set R) o.2)) ∈ paths_by_roles spec (.set R))
    ∧ ((op, sec) ∈ ops.filter (fun o => keep_op (.set R) o.2) ↔
        ((op, sec) ∈ ops ∧ (sec = none ∨ ∃ a, sec = some a ∧
          ("*" ∈ a ∨ "Admin" ∈ R ∨ ∃ r, r ∈ a ∧ r ∈ R)))) := by
  constructor
  · exact List.mem_map_of_mem
      (fun pr => (pr.1, pr.2.filter fun o => keep_op (.set R) o.2)) hpath
  · rw [List.mem_filter]
    constructor
    · rintro ⟨hmem, hkeep⟩
      exact ⟨hmem, (keep_op_set_iff R sec).mp hkeep⟩
    · rintro ⟨hmem, hcond⟩
      exact ⟨hmem, (keep_op_set_iff R sec).mpr hcond⟩

/-- C6: evaluating `parse_schemas` on the `AlterShieldedResource`
fixture (Shield.post declares `Staff -> otp` then `Doctor -> sms`):
because `schema_inst.shields[op] = [allowed_roles, shield_op]` is keyed
by the operation alone, the `Doctor -> sms` entry overwrites the
`Staff -> otp` entry, so the compiled mapping exposes only the last
declared role key's pair — the (post, Staff) -> otp requirement is
lost. -/
theorem shield_last_role_key_wins :
    parse_schemas mockSystemRoles alterShieldedResource
      = .ok [("post", (["Doctor"], "sms"))] := by rfl

/-- C8: after startup primes the `lru_cache` with the initial
`roles = ()` (a tuple, for which `authed & self.roles` raises a
suppressed TypeError so every operation is retained), a request whose
session carries the empty role set hits that cache entry
(`tuple(set()) == ()` hashes identically) and receives the completely
unfiltered projection, which differs from re-deriving the projection
for the empty role set. -/
theorem spec_cache_empty_roles_unfiltered :
    (actor_apispec mockSpecPaths (prime_cache mockSpecPaths) []).1 = mockSpecPaths
    ∧ paths_by_roles mockSpecPaths (.set []) = [("/store/", [("get", none)])]
    ∧ (actor_apispec mockSpecPaths (prime_cache mockSpecPaths) []).1
        ≠ paths_by_roles mockSpecPaths (.set []) :=
  ⟨by decide, by decide, by decide⟩

/-- Counterexample for C4 as stated: the auxiliary route name `list`
normalizes to `list/`, which ends in `list/`, yet `create_aux_views`
registers it (at the url colliding with the reserved list route)
instead of raising — the code only rejects names ending in `/list/`. -/
theorem aux_route_list_not_rejected :
    pyEndsWith (norm_aux_route "list") "list/" = true
    ∧ create_aux_views "/plainresource/" ["list"] = .ok ["/plainresource/list/"] :=
  ⟨by decide, by rfl⟩

/-- C9: the configured system role set is the union of the built-in
roles with the title-cased user roles; the five built-in roles (the
wildcard included) are always present; every member is a title-cased
name. -/
theorem system_roles_characterization (u : List String) (r : String) :
    (r ∈ setup_roles u ↔ (r ∈ DEFAULT_ROLES ∨ ∃ s, s ∈ u ∧ r = pyTitle s))
    ∧ (∀ d ∈ DEFAULT_ROLES, d ∈ setup_roles u)
    ∧ (∀ x ∈ setup_roles u, ∃ s, x = pyTitle s) := by
  have hmain : ∀ x : String,
      x ∈ setup_roles u ↔ (x ∈ DEFAULT_ROLES ∨ ∃ s, s ∈ u ∧ x = pyTitle s) := by
    intro x
    unfold setup_roles
    rw [List.mem_map]
    constructor
    · rintro ⟨s, hs, rfl⟩
      rcases List.mem_append.mp hs with hd | hu
      · rw [defaults_title_fixed s hd]
        exact Or.inl hd
      · exact Or.inr ⟨s, hu, rfl⟩
    · rintro (hd | ⟨s, hu, rfl⟩)
      · exact ⟨x, List.mem_append.mpr (Or.inl hd), defaults_title_fixed x hd⟩
      · exact ⟨s, List.mem_append.mpr (Or.inr hu), rfl⟩
  refine ⟨hmain r, ?_, ?_⟩
  · intro d hd
    exact (hmain d).mpr (Or.inl hd)
  · intro x hx
    rcases (hmain x).mp hx with hd | ⟨s, _, rfl⟩
    · exact ⟨x, (defaults_title_fixed x hd).symm⟩
    · exact ⟨s, rfl⟩

/-- Witness for C9 at the mock application's user roles. -/
theorem system_roles_characterization_witness :
    ("Patient" ∈ setup_roles ["patient", "doctor", "operator"] ↔
      ("Patient" ∈ DEFAULT_ROLES ∨ ∃ s, s ∈ ["patient", "doctor", "operator"]
        ∧ "Patient" = pyTitle s))
    ∧ (∀ d ∈ DEFAULT_ROLES, d ∈ setup_roles ["patient", "doctor", "operator"])
    ∧ (∀ x ∈ setup_roles ["patient", "doctor", "operator"], ∃ s, x = pyTitle s) :=
  system_roles_characterization ["patient", "doctor", "operator"] "Patient"


theorem pyEndsWith_append_slash (s : String) : pyEndsWith (s ++ "/") "/" = true := by
  simp [pyEndsWith, String.data_append]

theorem create_aux_views_all_ok (base : String) :
    ∀ names : List String,
      (∀ n ∈ names, pyEndsWith (norm_aux_route n) "/list/" = false) →
      create_aux_views base names
        = .ok (names.map (fun n => base ++ norm_aux_route n)) := by
  intro names
  induction names with
  | nil => intro _; rfl
  | cons n rest ih =>
      intro h
      have hn := h n (List.mem_cons_self n rest)
      have hrest := ih (fun m hm => h m (List.mem_cons_of_mem n hm))
      simp [create_aux_views, hn, hrest]

theorem create_aux_views_err (base : String) :
    ∀ names : List String,
      (∃ n ∈ names, pyEndsWith (norm_aux_route n) "/list/" = true) →
      ∃ e, create_aux_views base names = .error e := by
  intro names
  induction names with
  | nil => rintro ⟨n, hn, _⟩; cases hn
  | cons n rest ih =>
      rintro ⟨m, hm, hbad⟩
      by_cases hn : pyEndsWith (norm_aux_route n) "/list/" = true
      · exact ⟨"auxiliary route contains illegal value (/list/)",
          by simp [create_aux_views, hn]⟩
      · rcases List.mem_cons.mp hm with rfl | hm'
        · exact absurd hbad hn
        · simp only [Bool.not_eq_true] at hn
          obtain ⟨e, he⟩ := ih ⟨m, hm', hbad⟩
          exact ⟨e, by simp [create_aux_views, hn, he]⟩

/-- C4 (amended): every auxiliary route is registered nested under the
resource's base url with the normalized name (one leading slash
stripped, a missing trailing slash appended, so every registered url
ends with a slash); registration raises exactly when some declared name
normalizes to something ending in `/list/` — the code's actual
reserved-suffix check, which lets the bare name `list` through. -/
theorem aux_route_normalization_amended (base : String) (names : List String) :
    ((create_aux_views base names).isOk = true ↔
      ∀ n ∈ names, pyEndsWith (norm_aux_route n) "/list/" = false)
    ∧ ((∀ n ∈ names, pyEndsWith (norm_aux_route n) "/list/" = false) →
        create_aux_views base names
          = .ok (names.map (fun n => base ++ norm_aux_route n)))
    ∧ (∀ n : String, pyEndsWith (norm_aux_route n) "/" = true) := by
  refine ⟨⟨?_, ?_⟩, ?_, ?_⟩
  · intro hok
    by_contra hbad
    push_neg at hbad
    obtain ⟨n, hn, hne⟩ := hbad
    have hbad' : pyEndsWith (norm_aux_route n) "/list/" = true := by
      revert hne
      cases pyEndsWith (norm_aux_route n) "/list/" <;> simp
    obtain ⟨e, he⟩ := create_aux_views_err base names ⟨n, hn, hbad'⟩
    rw [he] at hok
    simp [Except.isOk, Except.toBool] at hok
  · intro hall
    rw [create_aux_views_all_ok base names hall]
    rfl
  · intro hall
    exact create_aux_views_all_ok base names hall
  · intro n
    show pyEndsWith (norm_aux_route n) "/" = true
    unfold norm_aux_route
    generalize (if pyStartsWith n "/" then (⟨n.data.drop 1⟩ : String) else n) = r1
    by_cases h : pyEndsWith r1 "/" = true
    · simp [h]
    · simp only [Bool.not_eq_true] at h
      simp [h, pyEndsWith_append_slash]

/-- Witness for C4's amended theorem at a concrete base and name list. -/
theorem aux_route_normalization_amended_witness :
    (((create_aux_views "/plainresource/" ["details"]).isOk = true ↔
       ∀ n ∈ ["details"], pyEndsWith (norm_aux_route n) "/list/" = false)
     ∧ ((∀ n ∈ ["details"], pyEndsWith (norm_aux_route n) "/list/" = false) →
         create_aux_views "/plainresource/" ["details"]
           = .ok (["details"].map (fun n => "/plainresource/" ++ norm_aux_route n)))
     ∧ (∀ n : String, pyEndsWith (norm_aux_route n) "/" = true)) :=
  aux_route_normalization_amended "/plainresource/" ["details"]

theorem checkRoleKey_isSome_iff (sys : List String) (k : RoleKey) :
    (checkRoleKey sys k).isSome = true ↔
      (match k with
       | RoleKey.many rs => ∀ r ∈ rs, r ∈ sys
       | RoleKey.one r => r = "*" ∨ r ∈ sys) := by
  cases k with
  | many rs =>
      by_cases h : rs.all (fun r => sys.contains r) = true
      · simp only [checkRoleKey, h, if_true, Option.isSome_some, true_iff]
        simpa using h
      · simp only [Bool.not_eq_true] at h
        simp only [checkRoleKey, h, Bool.false_eq_true, if_false, Option.isSome_none,
          Bool.false_eq_true, false_iff]
        intro hp
        have hall : rs.all (fun r => sys.contains r) = true := by
          simpa using hp
        rw [hall] at h
        cases h
  | one r =>
      by_cases hr : r = "*"
      · simp [checkRoleKey, hr]
      · by_cases hc : sys.contains r = true
        · have hc' : r ∈ sys := by simpa using hc
          simp [checkRoleKey, hr, hc, hc']
        · simp only [Bool.not_eq_true] at hc
          have hc' : r ∉ sys := by simpa using hc
          simp [checkRoleKey, hr, hc, hc']

theorem parseEntries_isOk (sys : List String) (op : String) :
    ∀ (entries : List (RoleKey × String))
      (shields : List (String × (List String × String))),
      (parseEntries sys op entries shields).isOk
        = entries.all (fun e => (checkRoleKey sys e.1).isSome
            && (decide (e.2 = "otp") || decide (e.2 = "sms"))) := by
  intro entries
  induction entries with
  | nil => intro shields; rfl
  | cons e rest ih =>
      intro shields
      obtain ⟨k, m⟩ := e
      cases hk : checkRoleKey sys k with
      | none => simp [parseEntries, hk, Except.isOk, Except.toBool]
      | some allowed =>
          by_cases hm : m = "otp" ∨ m = "sms"
          · simp [parseEntries, hk, hm, ih]
          · rw [not_or] at hm
            simp [parseEntries, hk, hm.1, hm.2, Except.isOk, Except.toBool]

theorem parseOps_isOk (sys : List String)
    (attrs : List (String × List (RoleKey × String))) :
    ∀ (ops : List String) (shields : List (String × (List String × String))),
      (parseOps sys attrs ops shields).isOk
        = ops.all (fun op => ((lookupA attrs op).getD []).all
            (fun e => (checkRoleKey sys e.1).isSome
              && (decide (e.2 = "otp") || decide (e.2 = "sms")))) := by
  intro ops
  induction ops with
  | nil => intro shields; rfl
  | cons op rest ih =>
      intro shields
      cases hl : lookupA attrs op with
      | none => simp [parseOps, hl, ih]
      | some entries =>
          cases hp : parseEntries sys op entries shields with
          | error e =>
              have hfalse : entries.all (fun e => (checkRoleKey sys e.1).isSome
                  && (decide (e.2 = "otp") || decide (e.2 = "sms"))) = false := by
                rw [← parseEntries_isOk sys op entries shields, hp]
                rfl
              simp [parseOps, hl, hp, hfalse, Except.isOk, Except.toBool]
          | ok shields' =>
              have htrue : entries.all (fun e => (checkRoleKey sys e.1).isSome
                  && (decide (e.2 = "otp") || decide (e.2 = "sms"))) = true := by
                rw [← parseEntries_isOk sys op entries shields, hp]
                rfl
              simp [parseOps, hl, hp, htrue, ih]

/-- C7: shield-rule compilation raises iff some effective shield rule
(one attached to an operation present, after expansion, in the Authed
or Private tiers) references a role outside the configured system role
set (the single wildcard key excepted) or names a method other than
`otp`/`sms`; it completes without error exactly when every effective
rule is valid. -/
theorem shield_parse_error_iff (sys : List String) (sch : ShieldSchema) :
    (parse_schemas sys sch).isOk = true ↔
      ∀ op ∈ expandOps (presentOps sch.authedPerms sch.privatePerms),
        ∀ e ∈ (lookupA sch.shield op).getD [],
          ((match e.1 with
            | RoleKey.many rs => ∀ r ∈ rs, r ∈ sys
            | RoleKey.one r => r = "*" ∨ r ∈ sys)
           ∧ (e.2 = "otp" ∨ e.2 = "sms")) := by
  rw [parse_schemas, parseOps_isOk, List.all_eq_true]
  constructor
  · intro hb op hop e he
    have h1 := hb op hop
    rw [List.all_eq_true] at h1
    have h2 := h1 e he
    rw [Bool.and_eq_true] at h2
    refine ⟨(checkRoleKey_isSome_iff sys e.1).mp h2.1, ?_⟩
    have h3 := h2.2
    simp only [Bool.or_eq_true, decide_eq_true_eq] at h3
    exact h3
  · intro hp op hop
    rw [List.all_eq_true]
    intro e he
    rw [Bool.and_eq_true]
    obtain ⟨hk, hm⟩ := hp op hop e he
    refine ⟨(checkRoleKey_isSome_iff sys e.1).mpr hk, ?_⟩
    simp only [Bool.or_eq_true, decide_eq_true_eq]
    exact hm

/-- Witness for C7 at the `AlterShieldedResource` fixture, whose
shield rules are all valid for the mock system roles. -/
theorem shield_parse_error_iff_witness :
    (parse_schemas mockSystemRoles alterShieldedResource).isOk = true ↔
      ∀ op ∈ expandOps (presentOps alterShieldedResource.authedPerms
          alterShieldedResource.privatePerms),
        ∀ e ∈ (lookupA alterShieldedResource.shield op).getD [],
          ((match e.1 with
            | RoleKey.many rs => ∀ r ∈ rs, r ∈ mockSystemRoles
            | RoleKey.one r => r = "*" ∨ r ∈ mockSystemRoles)
           ∧ (e.2 = "otp" ∨ e.2 = "sms")) :=
  shield_parse_error_iff mockSystemRoles alterShieldedResource

theorem parseOps_congr (sys : List String)
    (attrs attrs' : List (String × List (RoleKey × String))) :
    ∀ (ops : List String) (shields : List (String × (List String × String))),
      (∀ op ∈ ops, lookupA attrs' op = lookupA attrs op) →
      parseOps sys attrs' ops shields = parseOps sys attrs ops shields := by
  intro ops
  induction ops with
  | nil => intro shields _; rfl
  | cons op rest ih =>
      intro shields h
      have hop := h op (List.mem_cons_self op rest)
      have hrest := fun m hm => h m (List.mem_cons_of_mem op hm)
      cases hl : lookupA attrs op with
      | none =>
          simp only [parseOps, hop, hl]
          exact ih shields hrest
      | some entries =>
          simp only [parseOps, hop, hl]
          cases parseEntries sys op entries shields with
          | error e => rfl
          | ok shields' => exact ih shields' hrest

theorem mem_presentOps (a p : List String) (op : String) :
    op ∈ presentOps a p ↔ ((op ∈ a ∨ op ∈ p) ∧ pyStartsWith op "_" = false) := by
  simp [presentOps, List.mem_dedup, List.mem_filter, List.mem_append]
  tauto

theorem nodup_presentOps (a p : List String) : (presentOps a p).Nodup :=
  List.nodup_dedup _

theorem mem_expandOps (l : List String) (hnd : l.Nodup) (op : String) :
    op ∈ expandOps l ↔
      ((op ∈ l ∧ op ≠ "update" ∧ op ≠ "read")
       ∨ ((op = "patch" ∨ op = "put") ∧ "update" ∈ l)
       ∨ ((op = "get" ∨ op = "list") ∧ "read" ∈ l)) := by
  by_cases hu : "update" ∈ l
  · have hread : "read" ∈ l.erase "update" ++ ["patch", "put"] ↔ "read" ∈ l := by
      simp [hnd.mem_erase_iff]
    by_cases hr : "read" ∈ l
    · have hr1 : "read" ∈ l.erase "update" := by
        rw [hnd.mem_erase_iff]
        exact ⟨by decide, hr⟩
      have hstep : expandOps l = (l.erase "update").erase "read"
          ++ ["patch", "put"] ++ ["get", "list"] := by
        unfold expandOps
        rw [if_pos hu, if_pos (hread.mpr hr), List.erase_append_left _ hr1]
      rw [hstep]
      simp only [List.mem_append, (hnd.erase "update").mem_erase_iff,
        hnd.mem_erase_iff, List.mem_cons, List.mem_singleton,
        List.not_mem_nil, or_false]
      constructor
      · intro h
        tauto
      · intro h
        tauto
    · have hstep : expandOps l = l.erase "update" ++ ["patch", "put"] := by
        unfold expandOps
        rw [if_pos hu, if_neg (by rw [hread]; exact hr)]
      rw [hstep]
      simp only [List.mem_append, hnd.mem_erase_iff, List.mem_cons,
        List.mem_singleton, List.not_mem_nil, or_false]
      have hne : op ∈ l → op ≠ "read" := by
        rintro hmem rfl
        exact hr hmem
      constructor
      · intro h
        rcases h with ⟨hne_u, hmem⟩ | hpp
        · exact Or.inl ⟨hmem, hne_u, hne hmem⟩
        · exact Or.inr (Or.inl ⟨hpp, hu⟩)
      · intro h
        tauto
  · by_cases hr : "read" ∈ l
    · have hstep : expandOps l = l.erase "read" ++ ["get", "list"] := by
        unfold expandOps
        rw [if_neg hu, if_pos hr]
      rw [hstep]
      simp only [List.mem_append, hnd.mem_erase_iff, List.mem_cons,
        List.mem_singleton, List.not_mem_nil, or_false]
      have hne : op ∈ l → op ≠ "update" := by
        rintro hmem rfl
        exact hu hmem
      constructor
      · intro h
        rcases h with ⟨hne_r, hmem⟩ | hgl
        · exact Or.inl ⟨hmem, hne hmem, hne_r⟩
        · exact Or.inr (Or.inr ⟨hgl, hr⟩)
      · intro h
        tauto
    · have hstep : expandOps l = l := by
        unfold expandOps
        rw [if_neg hu, if_neg hr]
      rw [hstep]
      constructor
      · intro hmem
        refine Or.inl ⟨hmem, ?_, ?_⟩
        · rintro rfl
          exact hu hmem
        · rintro rfl
          exact hr hmem
      · intro h
        rcases h with ⟨hmem, _, _⟩ | ⟨_, hul⟩ | ⟨_, hrl⟩
        · exact hmem
        · exact absurd hul hu
        · exact absurd hrl hr

theorem parseEntries_dom (sys : List String) (op : String) :
    ∀ (entries : List (RoleKey × String)) shields res,
      parseEntries sys op entries shields = .ok res →
      ∀ k v, (k, v) ∈ res → k = op ∨ (k, v) ∈ shields := by
  intro entries
  induction entries with
  | nil =>
      intro shields res h k v hmem
      cases h
      exact Or.inr hmem
  | cons e rest ih =>
      intro shields res h k v hmem
      obtain ⟨key, meth⟩ := e
      cases hk : checkRoleKey sys key with
      | none => simp [parseEntries, hk] at h
      | some allowed =>
          by_cases hm : meth = "otp" ∨ meth = "sms"
          · simp only [parseEntries, hk, hm, if_true] at h
            rcases ih _ res h k v hmem with hop | hset
            · exact Or.inl hop
            · rcases mem_assocSet shields op k (allowed, meth) v hset with h1 | h2
              · exact Or.inl h1.1
              · exact Or.inr h2
          · simp [parseEntries, hk, hm] at h

theorem parseOps_dom (sys : List String)
    (attrs : List (String × List (RoleKey × String))) :
    ∀ (ops : List String) shields res,
      parseOps sys attrs ops shields = .ok res →
      ∀ k v, (k, v) ∈ res → k ∈ ops ∨ (k, v) ∈ shields := by
  intro ops
  induction ops with
  | nil =>
      intro shields res h k v hmem
      cases h
      exact Or.inr hmem
  | cons op rest ih =>
      intro shields res h k v hmem
      cases hl : lookupA attrs op with
      | none =>
          simp only [parseOps, hl] at h
          rcases ih shields res h k v hmem with h1 | h2
          · exact Or.inl (List.mem_cons_of_mem op h1)
          · exact Or.inr h2
      | some entries =>
          simp only [parseOps, hl] at h
          cases hp : parseEntries sys op entries shields with
          | error e =>
              rw [hp] at h
              cases h
          | ok shields' =>
              rw [hp] at h
              rcases ih shields' res h k v hmem with h1 | h2
              · exact Or.inl (List.mem_cons_of_mem op h1)
              · rcases parseEntries_dom sys op entries shields shields' hp k v h2
                  with hop | hs
                · exact Or.inl (hop ▸ List.mem_cons_self op rest)
                · exact Or.inr hs

/-- C10: Shield rules take effect only for operations present in the
Authed or Private tiers after name expansion (`update` to
`patch`/`put`, `read` to `get`/`list`): erasing every Shield entry for
a non-present operation leaves the compilation result (success, error
and compiled mapping alike) unchanged, the expanded present set is
exactly characterized, and every exposed shield binding is keyed by a
present operation. -/
theorem shield_present_ops_scoping (sys : List String) (sch : ShieldSchema) :
    (parse_schemas sys sch
       = parse_schemas sys
           { sch with
             shield := sch.shield.filter fun e =>
               (expandOps (presentOps sch.authedPerms sch.privatePerms)).contains e.1 })
    ∧ (∀ op, op ∈ expandOps (presentOps sch.authedPerms sch.privatePerms) ↔
         (((op ∈ sch.authedPerms ∨ op ∈ sch.privatePerms)
             ∧ pyStartsWith op "_" = false ∧ op ≠ "update" ∧ op ≠ "read")
          ∨ ((op = "patch" ∨ op = "put")
              ∧ ("update" ∈ sch.authedPerms ∨ "update" ∈ sch.privatePerms))
          ∨ ((op = "get" ∨ op = "list")
              ∧ ("read" ∈ sch.authedPerms ∨ "read" ∈ sch.privatePerms))))
    ∧ (∀ res, parse_schemas sys sch = .ok res →
         ∀ op v, (op, v) ∈ res →
           op ∈ expandOps (presentOps sch.authedPerms sch.privatePerms)) := by
  refine ⟨?_, ?_, ?_⟩
  · show parseOps sys sch.shield (expandOps (presentOps sch.authedPerms sch.privatePerms)) []
      = parseOps sys (sch.shield.filter _) (expandOps (presentOps sch.authedPerms sch.privatePerms)) []
    refine (parseOps_congr sys sch.shield _ _ [] ?_).symm
    intro op hop
    refine lookupA_filter_keys _ sch.shield op ?_
    simp only [List.elem_eq_mem, decide_eq_true_eq]
    exact hop
  · intro op
    rw [mem_expandOps _ (nodup_presentOps _ _) op]
    have h1 := mem_presentOps sch.authedPerms sch.privatePerms op
    have h2 := mem_presentOps sch.authedPerms sch.privatePerms "update"
    have h3 := mem_presentOps sch.authedPerms sch.privatePerms "read"
    rw [h1, h2, h3]
    have hu : pyStartsWith "update" "_" = false := by decide
    have hr : pyStartsWith "read" "_" = false := by decide
    simp [hu, hr, and_assoc]
  · intro res hok op v hmem
    rcases parseOps_dom sys sch.shield
        (expandOps (presentOps sch.authedPerms sch.privatePerms)) [] res hok op v hmem
      with h1 | h2
    · exact h1
    · cases h2

/-- Witness for C10 at the `AlterShieldedResource` fixture extended by
a shield entry for a non-present operation. -/
theorem shield_present_ops_scoping_witness :
    (parse_schemas mockSystemRoles alterShieldedResource
       = parse_schemas mockSystemRoles
           { alterShieldedResource with
             shield := alterShieldedResource.shield.filter fun e =>
               (expandOps (presentOps alterShieldedResource.authedPerms
                 alterShieldedResource.privatePerms)).contains e.1 })
    ∧ (∀ op, op ∈ expandOps (presentOps alterShieldedResource.authedPerms
          alterShieldedResource.privatePerms) ↔
         (((op ∈ alterShieldedResource.authedPerms
              ∨ op ∈ alterShieldedResource.privatePerms)
             ∧ pyStartsWith op "_" = false ∧ op ≠ "update" ∧ op ≠ "read")
          ∨ ((op = "patch" ∨ op = "put")
              ∧ ("update" ∈ alterShieldedResource.authedPerms
                 ∨ "update" ∈ alterShieldedResource.privatePerms))
          ∨ ((op = "get" ∨ op = "list")
              ∧ ("read" ∈ alterShieldedResource.authedPerms
                 ∨ "read" ∈ alterShieldedResource.privatePerms))))
    ∧ (∀ res, parse_schemas mockSystemRoles alterShieldedResource = .ok res →
         ∀ op v, (op, v) ∈ res →
           op ∈ expandOps (presentOps alterShieldedResource.authedPerms
             alterShieldedResource.privatePerms)) :=
  shield_present_ops_scoping mockSystemRoles alterShieldedResource

/-- C3: for every resource with views, a secondary handler accepting
POST is registered at `/{route_base}/get/`; a POST to it runs through
`get_proxy`, which executes exactly the `get` implementation the
primary view at `/{route_base}/` executes for GET, under the same
(inherited) `_perm_options`, so identical sessions and query
parameters produce an identical authorization outcome and result; the
list operation, when not excluded, is registered at
`/{route_base}/list/`. -/
theorem post_as_get_equivalence {P : Type} (perms : P) (routeBaseRaw : String)
    (excludedOps templateMethods : List String)
    (hget : "get" ∈ templateMethods) (hget2 : "get" ∉ excludedOps) :
    (("POST", (create_views routeBaseRaw excludedOps templateMethods).base_url ++ "get/", 1)
        ∈ (create_views routeBaseRaw excludedOps templateMethods).routes)
    ∧ invoke (create_views routeBaseRaw excludedOps templateMethods).get_copy perms "post"
        = invoke (create_views routeBaseRaw excludedOps templateMethods).primary perms "get"
    ∧ invoke (create_views routeBaseRaw excludedOps templateMethods).get_copy perms "post"
        = some ("get", perms)
    ∧ (("GET", (create_views routeBaseRaw excludedOps templateMethods).base_url ++ "list/", 2)
          ∈ (create_views routeBaseRaw excludedOps templateMethods).routes
        ↔ "list" ∉ excludedOps) := by
  have hgetfilter : "get" ∈ templateMethods.filter (fun m => !(excludedOps.contains m)) := by
    rw [List.mem_filter]
    refine ⟨hget, ?_⟩
    simp only [Bool.not_eq_true', List.elem_eq_mem, decide_eq_true_eq, decide_eq_false_iff_not]
    exact hget2
  have hprimary : lookupA
      ((templateMethods.filter (fun m => !(excludedOps.contains m))).map
        (fun m => (m, Handler.tmpl m))) "get" = some (.tmpl "get") :=
    lookupA_tmpl_map _ "get" hgetfilter
  have hpost : lookupA (create_views routeBaseRaw excludedOps templateMethods).get_copy "post"
      = some Handler.get_proxy := by
    show lookupA (assocSet _ "post" Handler.get_proxy) "post" = some Handler.get_proxy
    exact lookupA_assocSet_self _ _ _
  have hgetslot : lookupA (create_views routeBaseRaw excludedOps templateMethods).get_copy "get"
      = some (.tmpl "get") := by
    show lookupA (assocSet _ "post" Handler.get_proxy) "get" = some (.tmpl "get")
    rw [lookupA_assocSet_ne _ _ _ _ (by decide)]
    exact hprimary
  have hprimary2 : lookupA
      (create_views routeBaseRaw excludedOps templateMethods).primary "get"
      = some (.tmpl "get") := by
    show lookupA
      ((templateMethods.filter (fun m => !(excludedOps.contains m))).map
        (fun m => (m, Handler.tmpl m))) "get" = some (.tmpl "get")
    exact hprimary
  refine ⟨?_, ?_, ?_, ?_⟩
  · simp [create_views]
  · simp only [invoke, hpost, hgetslot, hprimary2]
  · simp only [invoke, hpost, hgetslot]
  · by_cases hl : excludedOps.contains "list"
    · have hl' : "list" ∈ excludedOps := by simpa using hl
      simp [create_views, hl, hl']
    · have hl' : "list" ∉ excludedOps := by simpa using hl
      simp [create_views, hl, hl']

/-- Witness for C3 at a concrete resource shaped after `PlainResource`
(route base `plainresource`, `put` excluded). -/
theorem post_as_get_equivalence_witness :
    ("get" ∈ ["get", "list", "post", "patch", "put", "delete"]
      ∧ "get" ∉ ["put"])
    ∧ ((("POST", (create_views "plainresource" ["put"]
          ["get", "list", "post", "patch", "put", "delete"]).base_url ++ "get/", 1)
        ∈ (create_views "plainresource" ["put"]
            ["get", "list", "post", "patch", "put", "delete"]).routes)
      ∧ invoke (create_views "plainresource" ["put"]
            ["get", "list", "post", "patch", "put", "delete"]).get_copy "perms" "post"
          = invoke (create_views "plainresource" ["put"]
              ["get", "list", "post", "patch", "put", "delete"]).primary "perms" "get"
      ∧ invoke (create_views "plainresource" ["put"]
            ["get", "list", "post", "patch", "put", "delete"]).get_copy "perms" "post"
          = some ("get", "perms")
      ∧ (("GET", (create_views "plainresource" ["put"]
              ["get", "list", "post", "patch", "put", "delete"]).base_url ++ "list/", 2)
            ∈ (create_views "plainresource" ["put"]
                ["get", "list", "post", "patch", "put", "delete"]).routes
          ↔ "list" ∉ ["put"])) :=
  ⟨⟨by decide, by decide⟩,
   post_as_get_equivalence "perms" "plainresource" ["put"]
     ["get", "list", "post", "patch", "put", "delete"] (by decide) (by decide)⟩

theorem process_fields_dc (t pk : String) :
    ∀ (fs : List (String × FieldKind)) (reg : Registry)
      (dc : List (String × String × String)),
      (process_fields t pk fs reg dc).2.1 = dc ++ fs.filterMap uniqLinkedTarget := by
  intro fs
  induction fs with
  | nil => intro reg dc; simp [process_fields]
  | cons hd rest ih =>
      intro reg dc
      obtain ⟨f, k⟩ := hd
      cases k with
      | plain => simp [process_fields, ih, uniqLinkedTarget]
      | autoSession tt tpk => simp [process_fields, ih, uniqLinkedTarget]
      | multiRef tt tpk => simp [process_fields, ih, uniqLinkedTarget]
      | singleRef tt tpk uniq =>
          cases uniq with
          | true => simp [process_fields, ih, uniqLinkedTarget]
          | false => simp [process_fields, ih, uniqLinkedTarget]

theorem process_fields_joins (t pk : String) :
    ∀ (fs : List (String × FieldKind)) (reg : Registry)
      (dc : List (String × String × String)),
      (process_fields t pk fs reg dc).2.2.1 = fs.filterMap joinOf := by
  intro fs
  induction fs with
  | nil => intro reg dc; simp [process_fields]
  | cons hd rest ih =>
      intro reg dc
      obtain ⟨f, k⟩ := hd
      cases k with
      | plain => simp [process_fields, ih, joinOf]
      | autoSession tt tpk => simp [process_fields, ih, joinOf]
      | multiRef tt tpk => simp [process_fields, ih, joinOf]
      | singleRef tt tpk uniq => simp [process_fields, ih, joinOf]

theorem process_fields_ws (t pk : String) :
    ∀ (fs : List (String × FieldKind)) (reg : Registry)
      (dc : List (String × String × String)),
      (process_fields t pk fs reg dc).2.2.2 = fs.filterMap wsOf := by
  intro fs
  induction fs with
  | nil => intro reg dc; simp [process_fields]
  | cons hd rest ih =>
      intro reg dc
      obtain ⟨f, k⟩ := hd
      cases k with
      | plain => simp [process_fields, ih, wsOf]
      | autoSession tt tpk => simp [process_fields, ih, wsOf]
      | multiRef tt tpk => simp [process_fields, ih, wsOf]
      | singleRef tt tpk uniq => simp [process_fields, ih, wsOf]

theorem process_fields_reg (t pk : String) (x : String) :
    ∀ (fs : List (String × FieldKind)) (reg : Registry)
      (dc : List (String × String × String)),
      (process_fields t pk fs reg dc).1 x = (reg x).map (fun r =>
        { r with
          deletion_cascade := r.deletion_cascade ++ fs.filterMap (cascadeAddsAt t pk x),
          m2m_cherrypicks := r.m2m_cherrypicks ++ fs.filterMap (cherryAddsAt t pk x) }) := by
  intro fs
  induction fs with
  | nil =>
      intro reg dc
      cases hreg : reg x <;> simp [process_fields, hreg]
  | cons hd rest ih =>
      intro reg dc
      obtain ⟨f, k⟩ := hd
      cases k with
      | plain =>
          simp [process_fields, ih, cascadeAddsAt, cherryAddsAt]
      | autoSession tt tpk =>
          simp [process_fields, ih, cascadeAddsAt, cherryAddsAt]
      | multiRef tt tpk =>
          show (process_fields t pk rest (appendCherry reg tt (t, f, pk)) dc).1 x = _
          rw [ih]
          by_cases hx : x = tt
          · subst hx
            cases hreg : reg x with
            | none => simp [appendCherry, hreg]
            | some r =>
                simp [appendCherry, hreg, cascadeAddsAt, cherryAddsAt]
          · cases hreg : reg x with
            | none => simp [appendCherry, hreg, Ne.symm hx]
            | some r =>
                simp [appendCherry, hreg, Ne.symm hx, cascadeAddsAt, cherryAddsAt, hx]
      | singleRef tt tpk uniq =>
          show (process_fields t pk rest (appendCascade reg tt (f, t, pk)) _).1 x = _
          rw [ih]
          by_cases hx : x = tt
          · subst hx
            cases hreg : reg x with
            | none => simp [appendCascade, hreg]
            | some r =>
                simp [appendCascade, hreg, cascadeAddsAt, cherryAddsAt]
          · cases hreg : reg x with
            | none => simp [appendCascade, hreg, Ne.symm hx]
            | some r =>
                simp [appendCascade, hreg, Ne.symm hx, cascadeAddsAt, cherryAddsAt, hx]

/-- C2: for every declared single-reference relationship field,
relationship resolution registers a cascade obligation on both the
declaring and the target resource when the field is unique
(one-to-one), and only on the target resource — recorded as
(source-field, source-table, source-primary-key) — when it is not,
with the declaring resource's own cascade list gaining no entry for a
non-unique field. -/
theorem cascade_obligation_sides
    (reg : Registry) (self : SchemaRec) (f tt tpk : String)
    (selfRec linked : SchemaRec)
    (hself : reg self.table = some selfRec)
    (hlinked : reg tt = some linked)
    (hne : tt ≠ self.table) :
    (((f, FieldKind.singleRef tt tpk true) ∈ self.fields →
       (∃ r, (process_relationships reg self).1 self.table = some r
          ∧ (tpk, tt, f) ∈ r.deletion_cascade)
       ∧ (∃ r, (process_relationships reg self).1 tt = some r
          ∧ (f, self.table, self.pk) ∈ r.deletion_cascade))
     ∧ (((f, FieldKind.singleRef tt tpk false) ∈ self.fields
          ∧ (self.fields.map Prod.fst).Nodup) →
       (∃ r, (process_relationships reg self).1 tt = some r
          ∧ (f, self.table, self.pk) ∈ r.deletion_cascade)
       ∧ (∃ r, (process_relationships reg self).1 self.table = some r
          ∧ r.deletion_cascade
              = self.deletion_cascade ++ self.fields.filterMap uniqLinkedTarget
          ∧ ∀ e ∈ self.fields.filterMap uniqLinkedTarget, e.2.2 ≠ f))) := by
  have hdc := process_fields_dc self.table self.pk self.fields reg self.deletion_cascade
  have hreg_self :=
    process_fields_reg self.table self.pk self.table self.fields reg self.deletion_cascade
  have hreg_tt :=
    process_fields_reg self.table self.pk tt self.fields reg self.deletion_cascade
  have hfin_self :
      (process_relationships reg self).1 self.table
        = some { (fun r => { r with
              deletion_cascade := r.deletion_cascade
                ++ self.fields.filterMap (cascadeAddsAt self.table self.pk self.table),
              m2m_cherrypicks := r.m2m_cherrypicks
                ++ self.fields.filterMap (cherryAddsAt self.table self.pk self.table) }) selfRec
            with deletion_cascade :=
              self.deletion_cascade ++ self.fields.filterMap uniqLinkedTarget } := by
    show (if self.table = self.table
        then ((process_fields self.table self.pk self.fields reg self.deletion_cascade).1
            self.table).map
          (fun r => { r with deletion_cascade :=
            (process_fields self.table self.pk self.fields reg self.deletion_cascade).2.1 })
        else (process_fields self.table self.pk self.fields reg self.deletion_cascade).1
          self.table) = _
    rw [if_pos rfl, hreg_self, hself, hdc]
    rfl
  have hfin_tt :
      (process_relationships reg self).1 tt
        = some { linked with
            deletion_cascade := linked.deletion_cascade
              ++ self.fields.filterMap (cascadeAddsAt self.table self.pk tt),
            m2m_cherrypicks := linked.m2m_cherrypicks
              ++ self.fields.filterMap (cherryAddsAt self.table self.pk tt) } := by
    show (if tt = self.table
        then ((process_fields self.table self.pk self.fields reg self.deletion_cascade).1
            tt).map
          (fun r => { r with deletion_cascade :=
            (process_fields self.table self.pk self.fields reg self.deletion_cascade).2.1 })
        else (process_fields self.table self.pk self.fields reg self.deletion_cascade).1 tt)
      = _
    rw [if_neg hne, hreg_tt, hlinked]
    rfl
  constructor
  · intro hfield
    constructor
    · refine ⟨_, hfin_self, ?_⟩
      show (tpk, tt, f) ∈ self.deletion_cascade ++ self.fields.filterMap uniqLinkedTarget
      refine List.mem_append_right _ (List.mem_filterMap.mpr ?_)
      exact ⟨(f, FieldKind.singleRef tt tpk true), hfield, rfl⟩
    · refine ⟨_, hfin_tt, ?_⟩
      show (f, self.table, self.pk) ∈ linked.deletion_cascade
        ++ self.fields.filterMap (cascadeAddsAt self.table self.pk tt)
      refine List.mem_append_right _ (List.mem_filterMap.mpr ?_)
      exact ⟨(f, FieldKind.singleRef tt tpk true), hfield, by simp [cascadeAddsAt]⟩
  · rintro ⟨hfield, hnodup⟩
    constructor
    · refine ⟨_, hfin_tt, ?_⟩
      show (f, self.table, self.pk) ∈ linked.deletion_cascade
        ++ self.fields.filterMap (cascadeAddsAt self.table self.pk tt)
      refine List.mem_append_right _ (List.mem_filterMap.mpr ?_)
      exact ⟨(f, FieldKind.singleRef tt tpk false), hfield, by simp [cascadeAddsAt]⟩
    · refine ⟨_, hfin_self, rfl, ?_⟩
      intro e he heq
      obtain ⟨⟨g, kk⟩, hgmem, hgeq⟩ := List.mem_filterMap.mp he
      cases kk with
      | plain => simp [uniqLinkedTarget] at hgeq
      | autoSession a b => simp [uniqLinkedTarget] at hgeq
      | multiRef a b => simp [uniqLinkedTarget] at hgeq
      | singleRef tt' tpk' u =>
          cases u with
          | false => simp [uniqLinkedTarget] at hgeq
          | true =>
              simp only [uniqLinkedTarget, Option.some.injEq] at hgeq
              subst hgeq
              have hg : g = f := heq
              subst hg
              have := nodup_keys_unique self.fields hnodup hgmem hfield
              cases this

/-- C5: for every multi-reference (many-to-many) field, relationship
resolution registers the declaring resource as a cherry-pick target on
the linked resource — recording (declaring-table, field-name,
declaring-primary-key) — and the generated filter condition for the
field is the `?&` set-containment statement
`{field} ?& %({field})s`, which contains no equality comparison. -/
theorem m2m_cherrypick_sides
    (reg : Registry) (self : SchemaRec) (f tt tpk : String) (linked : SchemaRec)
    (hlinked : reg tt = some linked)
    (hne : tt ≠ self.table)
    (hfield : (f, FieldKind.multiRef tt tpk) ∈ self.fields) :
    (∃ r, (process_relationships reg self).1 tt = some r
       ∧ (self.table, f, self.pk) ∈ r.m2m_cherrypicks)
    ∧ (f, m2mWhereStmt f) ∈ (process_relationships reg self).2.2
    ∧ m2mWhereStmt f = f ++ " ?& %(" ++ f ++ ")s"
    ∧ ['?', '&'] <:+: (m2mWhereStmt f).data
    ∧ ('=' ∉ f.data → '=' ∉ (m2mWhereStmt f).data) := by
  have hreg_tt :=
    process_fields_reg self.table self.pk tt self.fields reg self.deletion_cascade
  have hfin_tt :
      (process_relationships reg self).1 tt
        = some { linked with
            deletion_cascade := linked.deletion_cascade
              ++ self.fields.filterMap (cascadeAddsAt self.table self.pk tt),
            m2m_cherrypicks := linked.m2m_cherrypicks
              ++ self.fields.filterMap (cherryAddsAt self.table self.pk tt) } := by
    show (if tt = self.table
        then ((process_fields self.table self.pk self.fields reg self.deletion_cascade).1
            tt).map
          (fun r => { r with deletion_cascade :=
            (process_fields self.table self.pk self.fields reg self.deletion_cascade).2.1 })
        else (process_fields self.table self.pk self.fields reg self.deletion_cascade).1 tt)
      = _
    rw [if_neg hne, hreg_tt, hlinked]
    rfl
  have hdata : (m2mWhereStmt f).data
      = f.data ++ (" ?& %(" : String).data ++ (f.data ++ (")s" : String).data) := by
    simp [m2mWhereStmt, String.data_append]
  refine ⟨?_, ?_, rfl, ?_, ?_⟩
  · refine ⟨_, hfin_tt, ?_⟩
    show (self.table, f, self.pk) ∈ linked.m2m_cherrypicks
      ++ self.fields.filterMap (cherryAddsAt self.table self.pk tt)
    refine List.mem_append_right _ (List.mem_filterMap.mpr ?_)
    exact ⟨(f, FieldKind.multiRef tt tpk), hfield, by simp [cherryAddsAt]⟩
  · show (f, m2mWhereStmt f)
      ∈ (process_fields self.table self.pk self.fields reg self.deletion_cascade).2.2.2
    rw [process_fields_ws]
    refine List.mem_filterMap.mpr ?_
    exact ⟨(f, FieldKind.multiRef tt tpk), hfield, rfl⟩
  · rw [hdata]
    exact List.IsInfix.trans (by decide) (List.infix_append _ _ _)
  · intro hf
    have h1 : ('=' : Char) ∉ (" ?& %(" : String).data := by decide
    have h2 : ('=' : Char) ∉ ((")s") : String).data := by decide
    rw [hdata]
    simp [List.mem_append, hf, h1, h2]

/-- Witness for C2 at the `Product` fixture: `descr` is a unique
reference to `desc`, so both `product` and `desc` carry an obligation;
(the non-unique `producer` branch of the theorem is exercised through
the same concrete registry). -/
theorem cascade_obligation_sides_witness :
    ((∃ r, (process_relationships mockRegistry productRec).1 productRec.table = some r
        ∧ ("id", "desc", "descr") ∈ r.deletion_cascade)
     ∧ (∃ r, (process_relationships mockRegistry productRec).1 "desc" = some r
        ∧ ("descr", productRec.table, productRec.pk) ∈ r.deletion_cascade)) :=
  (cascade_obligation_sides mockRegistry productRec "descr" "desc" "id"
    productRec descRec (by decide) (by decide) (by decide)).1 (by decide)

/-- Witness for C5 at the `Store` fixture: `distributors` is a multi
reference to `dist`. -/
theorem m2m_cherrypick_sides_witness :
    (∃ r, (process_relationships mockRegistry storeRec).1 "dist" = some r
       ∧ (storeRec.table, "distributors", storeRec.pk) ∈ r.m2m_cherrypicks)
    ∧ ("distributors", m2mWhereStmt "distributors")
        ∈ (process_relationships mockRegistry storeRec).2.2
    ∧ m2mWhereStmt "distributors"
        = "distributors" ++ " ?& %(" ++ "distributors" ++ ")s"
    ∧ ['?', '&'] <:+: (m2mWhereStmt "distributors").data
    ∧ (('=' : Char) ∉ "distributors".data →
        ('=' : Char) ∉ (m2mWhereStmt "distributors").data) :=
  m2m_cherrypick_sides mockRegistry storeRec "distributors" "dist" "id"
    distRec (by decide) (by decide) (by decide)

theorem lookupA_map_snd {α β : Type} (f : α → β) :
    ∀ (l : List (String × α)) (k : String),
      lookupA (l.map (fun pr => (pr.1, f pr.2))) k = (lookupA l k).map f := by
  intro l
  induction l with
  | nil => intro k; rfl
  | cons hd tl ih =>
      intro k
      obtain ⟨k0, v0⟩ := hd
      by_cases h : k0 = k
      · simp [lookupA, h]
      · simp [lookupA, h, ih]

theorem lookupA_of_mem_nodup {α : Type} :
    ∀ (l : List (String × α)) (k : String) (a : α),
      (l.map Prod.fst).Nodup → (k, a) ∈ l → lookupA l k = some a := by
  intro l
  induction l with
  | nil => intro k a _ h; cases h
  | cons hd tl ih =>
      intro k a hnd hmem
      obtain ⟨k0, v0⟩ := hd
      simp only [List.map_cons, List.nodup_cons] at hnd
      rcases List.mem_cons.mp hmem with heq | htl
      · rw [Prod.mk.injEq] at heq
        simp [lookupA, heq.1.symm, heq.2.symm]
      · have hk : k0 ≠ k := by
          rintro rfl
          exact hnd.1 (List.mem_map_of_mem Prod.fst htl)
        simp [lookupA, hk, ih k a hnd.2 htl]

theorem assocSet_self_mem {α : Type} :
    ∀ (l : List (String × α)) (k : String) (v : α), (k, v) ∈ assocSet l k v := by
  intro l
  induction l with
  | nil => intro k v; simp [assocSet]
  | cons hd tl ih =>
      intro k v
      obtain ⟨k0, v0⟩ := hd
      by_cases h : k0 = k
      · simp [assocSet, h]
      · simp only [assocSet, h, if_false]
        exact List.mem_cons_of_mem _ (ih k v)

theorem mem_assocSet_of_ne {α : Type} :
    ∀ (l : List (String × α)) (k k' : String) (v v' : α),
      (k, v) ∈ l → k ≠ k' → (k, v) ∈ assocSet l k' v' := by
  intro l
  induction l with
  | nil => intro k k' v v' h _; cases h
  | cons hd tl ih =>
      intro k k' v v' hmem hne
      obtain ⟨k0, v0⟩ := hd
      by_cases h : k0 = k'
      · subst h
        rcases List.mem_cons.mp hmem with heq | htl
        · rw [Prod.mk.injEq] at heq
          exact absurd heq.1 hne
        · simp only [assocSet, if_pos rfl]
          exact List.mem_cons_of_mem _ htl
      · simp only [assocSet, h, if_false]
        rcases List.mem_cons.mp hmem with heq | htl
        · rw [heq]
          exact List.mem_cons_self _ _
        · exact List.mem_cons_of_mem _ (ih k k' v v' htl hne)

theorem key_mem_assocSet {α : Type} (l : List (String × α)) (k k' : String) (v' : α)
    (h : ∃ v, (k, v) ∈ l) : ∃ v, (k, v) ∈ assocSet l k' v' := by
  by_cases hk : k = k'
  · subst hk
    exact ⟨v', assocSet_self_mem l k v'⟩
  · obtain ⟨v, hv⟩ := h
    exact ⟨v, mem_assocSet_of_ne l k k' v v' hv hk⟩

theorem addPathEntries_preserves (components : List (String × String))
    (viewname url : String) (k : String) :
    ∀ (l : List (String × OpObj)) (out : List (String × (String × Bool × String))),
      (∃ v, (k, v) ∈ out) →
      ∃ v, (k, v) ∈ addPathEntries components viewname url l out := by
  intro l
  induction l with
  | nil => intro out h; exact h
  | cons e rest ih =>
      intro out h
      obtain ⟨m, o⟩ := e
      cases href : o.ref with
      | none => simpa [addPathEntries, href] using h
      | some ref =>
          cases hcomp : lookupA components ref with
          | none => simpa [addPathEntries, href, hcomp] using h
          | some schemaVal =>
              simp only [addPathEntries, href, hcomp]
              exact ih _ (key_mem_assocSet _ _ _ _ h)

theorem addPathEntries_writes (components : List (String × String))
    (viewname url : String) (op : String) (obj : OpObj) :
    ∀ (l : List (String × OpObj)) (out : List (String × (String × Bool × String))),
      (op, obj) ∈ l →
      (∀ e ∈ l, ∃ ref s, (e : String × OpObj).2.ref = some ref
          ∧ lookupA components ref = some s) →
      ∃ v, (viewname ++ ":" ++ methodLabel op, v)
        ∈ addPathEntries components viewname url l out := by
  intro l
  induction l with
  | nil => intro out h _; cases h
  | cons e rest ih =>
      intro out hop hrefs
      obtain ⟨m, o⟩ := e
      obtain ⟨ref, s, href, hcomp⟩ := hrefs (m, o) (List.mem_cons_self _ _)
      simp only at href
      simp only [addPathEntries, href, hcomp]
      rcases List.mem_cons.mp hop with heq | htl
      · rw [Prod.mk.injEq] at heq
        refine addPathEntries_preserves components viewname url _ rest _ ?_
        refine ⟨(url, o.security.isSome, s), ?_⟩
        rw [heq.1]
        exact assocSet_self_mem _ _ _
      · exact ih _ htl (fun e he => hrefs e (List.mem_cons_of_mem _ he))

theorem addPathEntries_mem (components : List (String × String))
    (viewname url : String) (k : String) (v : String × Bool × String) :
    ∀ (l : List (String × OpObj)) (out : List (String × (String × Bool × String))),
      (k, v) ∈ addPathEntries components viewname url l out →
      (k, v) ∈ out ∨ ∃ m o, (m, o) ∈ l ∧ k = viewname ++ ":" ++ methodLabel m := by
  intro l
  induction l with
  | nil => intro out h; exact Or.inl h
  | cons e rest ih =>
      intro out h
      obtain ⟨m, o⟩ := e
      cases href : o.ref with
      | none =>
          simp only [addPathEntries, href] at h
          exact Or.inl h
      | some ref =>
          cases hcomp : lookupA components ref with
          | none =>
              simp only [addPathEntries, href, hcomp] at h
              exact Or.inl h
          | some schemaVal =>
              simp only [addPathEntries, href, hcomp] at h
              rcases ih _ h with hout | ⟨m', o', hm', hk⟩
              · rcases mem_assocSet _ _ _ _ _ hout with ⟨hk, _⟩ | hstay
                · exact Or.inr ⟨m, o, List.mem_cons_self _ _, hk⟩
                · exact Or.inl hstay
              · exact Or.inr ⟨m', o', List.mem_cons_of_mem _ hm', hk⟩

theorem build_out_preserves (filtered : SpecPathsF)
    (components : List (String × String)) (k : String) :
    ∀ (rs : List RouterResource) (out : List (String × (String × Bool × String))),
      (∃ v, (k, v) ∈ out) →
      ∃ v, (k, v) ∈ build_out filtered components rs out := by
  intro rs
  induction rs with
  | nil => intro out h; exact h
  | cons r rest ih =>
      intro out h
      by_cases hskip : r.firstMethod = "OPTIONS" ∨ r.firstMethod = "POST"
      · simp only [build_out, if_pos hskip]
        exact ih out h
      · cases hl : lookupA filtered r.url with
        | none =>
            simp only [build_out, if_neg hskip, hl]
            exact ih out h
        | some viewSpec =>
            simp only [build_out, if_neg hskip, hl]
            exact ih _ (addPathEntries_preserves components r.viewname r.url k viewSpec out h)

theorem build_out_writes (filtered : SpecPathsF)
    (components : List (String × String)) (r : RouterResource)
    (item : List (String × OpObj)) (op : String) (obj : OpObj)
    (hskip : ¬(r.firstMethod = "OPTIONS" ∨ r.firstMethod = "POST"))
    (hitem : lookupA filtered r.url = some item)
    (hop : (op, obj) ∈ item)
    (hrefs : ∀ e ∈ item, ∃ ref s, (e : String × OpObj).2.ref = some ref
        ∧ lookupA components ref = some s) :
    ∀ (rs : List RouterResource) (out : List (String × (String × Bool × String))),
      r ∈ rs →
      ∃ v, (r.viewname ++ ":" ++ methodLabel op, v)
        ∈ build_out filtered components rs out := by
  intro rs
  induction rs with
  | nil => intro out h; cases h
  | cons r0 rest ih =>
      intro out hmem
      rcases List.mem_cons.mp hmem with heq | htl
      · subst heq
        simp only [build_out, if_neg hskip, hitem]
        exact build_out_preserves filtered components _ rest _
          (addPathEntries_writes components r.viewname r.url op obj item out hop hrefs)
      · by_cases hskip0 : r0.firstMethod = "OPTIONS" ∨ r0.firstMethod = "POST"
        · simp only [build_out, if_pos hskip0]
          exact ih out htl
        · cases hl : lookupA filtered r0.url with
          | none =>
              simp only [build_out, if_neg hskip0, hl]
              exact ih out htl
          | some viewSpec =>
              simp only [build_out, if_neg hskip0, hl]
              exact ih _ htl

theorem build_out_mem (filtered : SpecPathsF)
    (components : List (String × String)) (k : String) (v : String × Bool × String) :
    ∀ (rs : List RouterResource) (out : List (String × (String × Bool × String))),
      (k, v) ∈ build_out filtered components rs out →
      (k, v) ∈ out ∨ ∃ r ∈ rs, ¬(RouterResource.firstMethod r = "OPTIONS"
          ∨ RouterResource.firstMethod r = "POST")
        ∧ ∃ item, lookupA filtered (RouterResource.url r) = some item
        ∧ ∃ m o, (m, o) ∈ item ∧ k = RouterResource.viewname r ++ ":" ++ methodLabel m := by
  intro rs
  induction rs with
  | nil => intro out h; exact Or.inl h
  | cons r0 rest ih =>
      intro out h
      by_cases hskip : r0.firstMethod = "OPTIONS" ∨ r0.firstMethod = "POST"
      · simp only [build_out, if_pos hskip] at h
        rcases ih out h with hout | ⟨r, hr, hrest⟩
        · exact Or.inl hout
        · exact Or.inr ⟨r, List.mem_cons_of_mem _ hr, hrest⟩
      · cases hl : lookupA filtered r0.url with
        | none =>
            simp only [build_out, if_neg hskip, hl] at h
            rcases ih out h with hout | ⟨r, hr, hrest⟩
            · exact Or.inl hout
            · exact Or.inr ⟨r, List.mem_cons_of_mem _ hr, hrest⟩
        | some viewSpec =>
            simp only [build_out, if_neg hskip, hl] at h
            rcases ih _ h with hout | ⟨r, hr, hrest⟩
            · rcases addPathEntries_mem components r0.viewname r0.url k v viewSpec out hout
                with hstay | ⟨m, o, hm, hk⟩
              · exact Or.inl hstay
              · exact Or.inr ⟨r0, List.mem_cons_self _ _, hskip, viewSpec, hl, m, o, hm, hk⟩
            · exact Or.inr ⟨r, List.mem_cons_of_mem _ hr, hrest⟩

theorem sep_append_inj (c : Char) :
    ∀ (A B X Y : List Char), c ∉ A → c ∉ B →
      A ++ c :: X = B ++ c :: Y → A = B ∧ X = Y := by
  intro A
  induction A with
  | nil =>
      intro B X Y _ hb h
      cases B with
      | nil =>
          simp only [List.nil_append] at h
          exact ⟨rfl, List.cons.inj h |>.2⟩
      | cons b bs =>
          simp only [List.nil_append, List.cons_append] at h
          have hcb := (List.cons.inj h).1
          exact absurd (hcb ▸ List.mem_cons_self b bs) hb
  | cons a as ih =>
      intro B X Y ha hb h
      cases B with
      | nil =>
          simp only [List.cons_append, List.nil_append] at h
          have hac := (List.cons.inj h).1
          exact absurd (hac ▸ List.mem_cons_self a as) ha
      | cons b bs =>
          simp only [List.cons_append] at h
          obtain ⟨hab, htail⟩ := List.cons.inj h
          have ha' : c ∉ as := fun hx => ha (List.mem_cons_of_mem _ hx)
          have hb' : c ∉ bs := fun hx => hb (List.mem_cons_of_mem _ hx)
          obtain ⟨h1, h2⟩ := ih bs X Y ha' hb' htail
          exact ⟨by rw [hab, h1], h2⟩

theorem colon_concat_inj (a b x y : String)
    (ha : (':' : Char) ∉ a.data) (hb : (':' : Char) ∉ b.data)
    (h : a ++ ":" ++ x = b ++ ":" ++ y) : a = b ∧ x = y := by
  have hdata : a.data ++ ':' :: x.data = b.data ++ ':' :: y.data := by
    have := congrArg String.data h
    simpa [String.data_append] using this
  obtain ⟨h1, h2⟩ := sep_append_inj ':' a.data b.data x.data y.data ha hb hdata
  constructor
  · cases a; cases b
    exact congrArg String.mk h1
  · cases x; cases y
    exact congrArg String.mk h2

/-- C1: for every role set R and every operation declared in the full
API description, the role-scoped projection `out` produced by
`PathsReturner.paths_by_roles` — the role filtering of lines 198-207
followed by the per-resource re-keying of lines 209-241 — contains
that operation (under its `viewname:method` key) iff the operation's
allowed-role set intersects R, or the operation is globally open (its
allowed roles contain `*`, R contains `Admin`, or it declares no
security requirement).  The document/router shape the re-keying phase
relies on is `WellFormedDoc`, modelled from the spec because the spec
builder (src/postschema/spec.py) is not under src/. -/
theorem spec_filter_out_membership
    (spec : SpecPathsF) (components : List (String × String))
    (router : List RouterResource) (R : List String)
    (path : String) (item : PathItemF) (op : String) (obj : OpObj)
    (r : RouterResource)
    (hwf : WellFormedDoc spec components router)
    (hitem : (path, item) ∈ spec) (hop : (op, obj) ∈ item)
    (hr : r ∈ router) (hurl : r.url = path)
    (hskip : ¬(r.firstMethod = "OPTIONS" ∨ r.firstMethod = "POST")) :
    ((∃ v, (r.viewname ++ ":" ++ methodLabel op, v)
        ∈ paths_by_roles_out spec components router (.set R))
      ↔ (obj.security = none ∨ ∃ a, obj.security = some a ∧
          ("*" ∈ a ∨ "Admin" ∈ R ∨ ∃ ro, ro ∈ a ∧ ro ∈ R))) := by
  have hfiltered : lookupA (paths_by_roles_full spec (.set R)) path
      = some (item.filter (fun e => keep_op (.set R) e.2.security)) := by
    unfold paths_by_roles_full
    rw [lookupA_map_snd (fun it => it.filter (fun e => keep_op (.set R) e.2.security))
      spec path]
    rw [lookupA_of_mem_nodup spec path item hwf.nodup_paths hitem]
    rfl
  constructor
  · rintro ⟨v, hv⟩
    rcases build_out_mem _ components _ v router [] hv with hnil
      | ⟨r', hr', hskip', item'', hl'', m, o, hmo, hkey⟩
    · cases hnil
    · obtain ⟨hvn, hlab⟩ :=
        colon_concat_inj r.viewname r'.viewname (methodLabel op) (methodLabel m)
          (hwf.colon_free r hr) (hwf.colon_free r' hr') hkey
      have hurl' : r'.url = path := by
        rw [hwf.viewname_url r' hr' r hr hvn.symm, hurl]
      rw [hurl', hfiltered] at hl''
      have hitem'' := Option.some.inj hl''
      rw [← hitem''] at hmo
      have hmo' := List.mem_filter.mp hmo
      have hm_eq : op = m :=
        hwf.label_inj path item hitem op
          (List.mem_map_of_mem Prod.fst hop) m
          (List.mem_map_of_mem Prod.fst hmo'.1) hlab
      rw [← hm_eq] at hmo'
      have hobj : o = obj :=
        nodup_keys_unique item (hwf.nodup_methods path item hitem) hmo'.1 hop
      have hkeep := hmo'.2
      rw [hobj] at hkeep
      exact (keep_op_set_iff R obj.security).mp hkeep
  · intro hcond
    have hkeep : keep_op (.set R) obj.security = true :=
      (keep_op_set_iff R obj.security).mpr hcond
    have hmemf : (op, obj) ∈ item.filter (fun e => keep_op (.set R) e.2.security) :=
      List.mem_filter.mpr ⟨hop, hkeep⟩
    refine build_out_writes (paths_by_roles_full spec (.set R)) components r
      (item.filter (fun e => keep_op (.set R) e.2.security)) op obj hskip ?_ hmemf
      (fun e he => hwf.refs_ok path item hitem e (List.mem_filter.mp he).1)
      router [] hr
    rw [hurl]
    exact hfiltered

/-- Witness for C1 at a one-resource document: the `Owner`-restricted
`post` operation of `/store/` is exposed under the `store:post` key for
an `Owner` session. -/
theorem spec_filter_out_membership_witness :
    ((∃ v, ("store" ++ ":" ++ methodLabel "post", v)
        ∈ paths_by_roles_out
            [("/store/", [("post", ⟨some ["Owner"], some "Store"⟩),
                          ("get", (⟨none, some "Store"⟩ : OpObj))])]
            [("Store", "storeschema")]
            [⟨"store", "/store/", "*"⟩] (.set ["Owner"]))
      ↔ ((⟨some ["Owner"], some "Store"⟩ : OpObj).security = none
          ∨ ∃ a, (⟨some ["Owner"], some "Store"⟩ : OpObj).security = some a ∧
            ("*" ∈ a ∨ "Admin" ∈ ["Owner"] ∨ ∃ ro, ro ∈ a ∧ ro ∈ ["Owner"]))) :=
  spec_filter_out_membership
    [("/store/", [("post", ⟨some ["Owner"], some "Store"⟩),
                  ("get", (⟨none, some "Store"⟩ : OpObj))])]
    [("Store", "storeschema")]
    [⟨"store", "/store/", "*"⟩] ["Owner"] "/store/"
    [("post", ⟨some ["Owner"], some "Store"⟩), ("get", (⟨none, some "Store"⟩ : OpObj))]
    "post" ⟨some ["Owner"], some "Store"⟩ ⟨"store", "/store/", "*"⟩
    ⟨by decide,
     by
       intro path item hmem
       simp only [List.mem_singleton, Prod.mk.injEq] at hmem
       obtain ⟨rfl, rfl⟩ := hmem
       decide,
     by
       intro path item hmem m hm m' hm' hl
       simp only [List.mem_singleton, Prod.mk.injEq] at hmem
       obtain ⟨rfl, rfl⟩ := hmem
       simp only [List.map_cons, List.map_nil, List.mem_cons, List.mem_singleton,
         List.not_mem_nil, or_false] at hm hm'
       revert hl
       rcases hm with rfl | rfl <;> rcases hm' with rfl | rfl <;> decide,
     by
       intro path item hmem e he
       simp only [List.mem_singleton, Prod.mk.injEq] at hmem
       obtain ⟨rfl, rfl⟩ := hmem
       simp only [List.mem_cons, List.mem_singleton, List.not_mem_nil, or_false] at he
       rcases he with rfl | rfl
       · exact ⟨"Store", "storeschema", rfl, rfl⟩
       · exact ⟨"Store", "storeschema", rfl, rfl⟩,
     by decide,
     by decide⟩
    (by decide) (by decide) (by decide) rfl (by decide)
